import Mathlib

/-!
Verification of the GioPan04/zed repository sources.

Part 1 embeds the function attach_context_to_message together with the data
types it operates on, from crates/assistant2/src/context.rs.

Part 2 models the diagnostics aggregation and excerpt-projection engine.  The
engine itself is present in the repository only through its test file
crates/diagnostics/src/diagnostics_tests.rs, so the engine (Producer Ledger,
Grouping Engine, Excerpt Projector, Debounce Scheduler) is modelled from the
specification, following its words.
-/

namespace Context

/-- Embeds enum ContextKind from crates/assistant2/src/context.rs: the five
closed variants of context sources. -/
inductive ContextKind where
  | file
  | directory
  | symbol
  | fetchedUrl
  | thread
deriving DecidableEq, Repr

/-- Embeds struct ContextSnapshot from crates/assistant2/src/context.rs.
ContextId is a usize wrapper, modelled as Nat; SharedString as String;
the text field, a boxed slice of SharedString, as a list of strings. -/
structure ContextSnapshot where
  id : Nat
  name : String
  parent : Option String
  tooltip : Option String
  iconPath : Option String
  kind : ContextKind
  text : List String
deriving DecidableEq, Repr

/-- Models enum MessageContent from the language_model crate (not under src/):
only the Text variant is constructed by attach_context_to_message. -/
inductive MessageContent where
  | text (content : String)
deriving DecidableEq, Repr

/-- Models struct LanguageModelRequestMessage from the language_model crate
(not under src/): a role (opaque, modelled as Nat), an ordered content list,
and a cache flag. -/
structure LanguageModelRequestMessage where
  role : Nat
  content : List MessageContent
  cache : Bool
deriving DecidableEq, Repr

/-- The bucket of contexts of one kind, in input order.  The Rust function
builds the five buckets in one pass, pushing each context into the vector for
its kind; that single pass is equivalent to one order-preserving filter per
kind. -/
def ofKind (k : ContextKind) (contexts : List ContextSnapshot) : List ContextSnapshot :=
  contexts.filter fun c => decide (c.kind = k)

/-- Embeds the capacity computation of attach_context_to_message
(crates/assistant2/src/context.rs lines 290-315): the total number of text
chunks over all contexts, plus one header per non-empty bucket, plus one name
per FetchedUrl and per Thread context. -/
def attachCapacity (contexts : List ContextSnapshot) : Nat :=
  (contexts.map fun c => c.text.length).sum
    + (if (ofKind .file contexts).isEmpty then 0 else 1)
    + (if (ofKind .directory contexts).isEmpty then 0 else 1)
    + (if (ofKind .symbol contexts).isEmpty then 0 else 1)
    + (if (ofKind .fetchedUrl contexts).isEmpty then 0
       else 1 + (ofKind .fetchedUrl contexts).length)
    + (if (ofKind .thread contexts).isEmpty then 0
       else 1 + (ofKind .thread contexts).length)

/-- One section of context_chunks: a header followed by, per context, its name
(only for the FetchedUrl and Thread sections, where withName is true) and its
text chunks.  Nothing is emitted for an empty bucket. -/
def sectionChunks (header : String) (withName : Bool)
    (bucket : List ContextSnapshot) : List String :=
  if bucket.isEmpty then []
  else header :: bucket.flatMap fun c => (if withName then [c.name] else []) ++ c.text

/-- Embeds the context_chunks construction of attach_context_to_message
(crates/assistant2/src/context.rs lines 320-367): the five sections in the
fixed order File, Directory, Symbol, FetchedUrl, Thread. -/
def contextChunks (contexts : List ContextSnapshot) : List String :=
  sectionChunks "The following files are available:\n" false (ofKind .file contexts)
    ++ sectionChunks "The following directories are available:\n" false
        (ofKind .directory contexts)
    ++ sectionChunks "The following symbols are available:\n" false
        (ofKind .symbol contexts)
    ++ sectionChunks "The following fetched results are available:\n" true
        (ofKind .fetchedUrl contexts)
    ++ sectionChunks "The following previous conversation threads are available:\n" true
        (ofKind .thread contexts)

/-- Embeds fn attach_context_to_message (crates/assistant2/src/context.rs
lines 280-381).  The Rust function mutates the message in place; here the
updated message is returned. -/
def attach_context_to_message (message : LanguageModelRequestMessage)
    (contexts : List ContextSnapshot) : LanguageModelRequestMessage :=
  if attachCapacity contexts = 0 then message
  else
    let context_chunks := contextChunks contexts
    if context_chunks.isEmpty then message
    else
      { message with
        content := message.content
          ++ [MessageContent.text (String.intercalate "\n" context_chunks)] }

/-- The reordering of a context list into the fixed kind order File,
Directory, Symbol, FetchedUrl, Thread, keeping the relative order inside each
kind. -/
def kindOrdered (contexts : List ContextSnapshot) : List ContextSnapshot :=
  ofKind .file contexts ++ ofKind .directory contexts ++ ofKind .symbol contexts
    ++ ofKind .fetchedUrl contexts ++ ofKind .thread contexts

theorem sum_len_add_one (b : List ContextSnapshot) :
    (List.map (fun c => c.text.length + 1) b).sum =
      b.length + (List.map (fun c => c.text.length) b).sum := by
  induction b with
  | nil => simp
  | cons c rest ih => simp [ih]; omega

theorem sectionChunks_len_noName (h : String) (b : List ContextSnapshot) :
    (sectionChunks h false b).length =
      (if b.isEmpty then 0 else 1) + (b.map fun c => c.text.length).sum := by
  cases b with
  | nil => simp [sectionChunks]
  | cons c rest => simp [sectionChunks, Function.comp_def]; omega

theorem sectionChunks_len_name (h : String) (b : List ContextSnapshot) :
    (sectionChunks h true b).length =
      (if b.isEmpty then 0 else 1 + b.length) + (b.map fun c => c.text.length).sum := by
  cases b with
  | nil => simp [sectionChunks]
  | cons c rest =>
    simp [sectionChunks, Function.comp_def, sum_len_add_one]
    omega

theorem sum_ofKind (f : ContextSnapshot → Nat) (cs : List ContextSnapshot) :
    (cs.map f).sum =
      ((ofKind .file cs).map f).sum + ((ofKind .directory cs).map f).sum
        + ((ofKind .symbol cs).map f).sum + ((ofKind .fetchedUrl cs).map f).sum
        + ((ofKind .thread cs).map f).sum := by
  induction cs with
  | nil => simp [ofKind]
  | cons c rest ih =>
    cases hk : c.kind <;> simp [ofKind, List.filter_cons, hk] <;>
      simp only [ofKind] at ih <;> omega

theorem contextChunks_length_aux (cs : List ContextSnapshot) :
    (contextChunks cs).length = attachCapacity cs := by
  have hs := sum_ofKind (fun c => c.text.length) cs
  simp only [contextChunks, attachCapacity, List.length_append,
    sectionChunks_len_noName, sectionChunks_len_name]
  rw [hs]
  split_ifs <;> omega

theorem capacity_pos (cs : List ContextSnapshot) (h : cs ≠ []) :
    attachCapacity cs ≠ 0 := by
  match cs, h with
  | c :: rest, _ =>
    cases hk : c.kind <;>
      simp [attachCapacity, ofKind, List.filter_cons, hk] <;>
      split_ifs <;> omega

theorem ofKind_ofKind (k k' : ContextKind) (cs : List ContextSnapshot) :
    ofKind k (ofKind k' cs) = if k = k' then ofKind k cs else [] := by
  induction cs with
  | nil => simp [ofKind]
  | cons c rest ih =>
    by_cases h1 : c.kind = k' <;> by_cases h2 : c.kind = k <;>
      split_ifs at ih ⊢ <;> simp_all [ofKind, List.filter_cons]

theorem ofKind_append (k : ContextKind) (l1 l2 : List ContextSnapshot) :
    ofKind k (l1 ++ l2) = ofKind k l1 ++ ofKind k l2 :=
  List.filter_append l1 l2

theorem ofKind_kindOrdered (k : ContextKind) (cs : List ContextSnapshot) :
    ofKind k (kindOrdered cs) = ofKind k cs := by
  cases k <;> simp [kindOrdered, ofKind_append, ofKind_ofKind]

theorem capacity_kindOrdered (cs : List ContextSnapshot) :
    attachCapacity (kindOrdered cs) = attachCapacity cs := by
  have h1 := sum_ofKind (fun c => c.text.length) (kindOrdered cs)
  have h2 := sum_ofKind (fun c => c.text.length) cs
  simp only [ofKind_kindOrdered] at h1
  simp only [attachCapacity, ofKind_kindOrdered]
  rw [h1, h2]

theorem chunks_kindOrdered (cs : List ContextSnapshot) :
    contextChunks (kindOrdered cs) = contextChunks cs := by
  simp only [contextChunks, ofKind_kindOrdered]

theorem attach_nonempty (m : LanguageModelRequestMessage) (cs : List ContextSnapshot)
    (h : cs ≠ []) :
    attach_context_to_message m cs =
      { m with content := m.content
          ++ [MessageContent.text (String.intercalate "\n" (contextChunks cs))] } := by
  have hcap : attachCapacity cs ≠ 0 := capacity_pos cs h
  have hch : ¬((contextChunks cs).isEmpty = true) := by
    intro hc
    rcases List.isEmpty_iff.mp hc with hnil
    have := contextChunks_length_aux cs
    rw [hnil] at this
    exact hcap this.symm
  simp [attach_context_to_message, hcap, hch]

theorem attach_kindOrdered (m : LanguageModelRequestMessage) (cs : List ContextSnapshot) :
    attach_context_to_message m (kindOrdered cs) = attach_context_to_message m cs := by
  simp only [attach_context_to_message, capacity_kindOrdered, chunks_kindOrdered]

/-- Claim C9: attach_context_to_message leaves the message completely unchanged
for an empty contexts iterator (and more generally whenever the computed
capacity is zero); for every non-empty contexts iterator it appends exactly one
MessageContent.Text element to message.content and modifies no other part of
the message, grouping the contexts into sections in the fixed kind order File,
Directory, Symbol, FetchedUrl, Thread regardless of the iterator's order. -/
theorem attach_context_to_message_frame (m : LanguageModelRequestMessage)
    (cs : List ContextSnapshot) (hne : cs ≠ []) :
    (∀ m' : LanguageModelRequestMessage, attach_context_to_message m' [] = m') ∧
    (∀ (m' : LanguageModelRequestMessage) (cs' : List ContextSnapshot),
        attachCapacity cs' = 0 → attach_context_to_message m' cs' = m') ∧
    attach_context_to_message m cs =
      { m with content := m.content
          ++ [MessageContent.text (String.intercalate "\n" (contextChunks cs))] } ∧
    attach_context_to_message m cs = attach_context_to_message m (kindOrdered cs) :=
  ⟨fun m' => rfl,
   fun m' cs' h => by simp [attach_context_to_message, h],
   attach_nonempty m cs hne,
   (attach_kindOrdered m cs).symm⟩

/-- Claim C10: the number of chunks pushed into context_chunks always equals
the precomputed capacity (sum of text lengths, plus one header per non-empty
kind bucket, plus one name per FetchedUrl and per Thread context), so the
debug_assert in attach_context_to_message comparing them never fires. -/
theorem attach_capacity_exact (cs : List ContextSnapshot) :
    (contextChunks cs).length = attachCapacity cs :=
  contextChunks_length_aux cs

/-- Concrete context snapshot used by the C9 witness. -/
def exampleSnapshot : ContextSnapshot :=
  ⟨0, "a.rs", none, none, none, ContextKind.file, ["fn main"]⟩

/-- Concrete message used by the C9 witness. -/
def exampleMessage : LanguageModelRequestMessage := ⟨0, [], false⟩

theorem attach_context_to_message_frame_witness :
    ([exampleSnapshot] ≠ ([] : List ContextSnapshot)) ∧
    attach_context_to_message exampleMessage [exampleSnapshot] =
      { exampleMessage with content := exampleMessage.content
          ++ [MessageContent.text
                (String.intercalate "\n" (contextChunks [exampleSnapshot]))] } :=
  ⟨by simp,
   (attach_context_to_message_frame exampleMessage [exampleSnapshot] (by simp)).2.2.1⟩

end Context

namespace Diagnostics

/-- Modelled from the spec (section 3, Range Model): the ordered severity enum,
Error > Warning > Information > Hint, matching the DiagnosticSeverity values
used in crates/diagnostics/src/diagnostics_tests.rs. -/
inductive DiagnosticSeverity where
  | error
  | warning
  | information
  | hint
deriving DecidableEq, Repr

/-- Sort rank of a severity: the most severe first. -/
def DiagnosticSeverity.rank : DiagnosticSeverity → Nat
  | .error => 0
  | .warning => 1
  | .information => 2
  | .hint => 3

/-- Modelled from the spec (section 3): a start/end position pair in
document-version-relative coordinates, unclipped, possibly beyond document
bounds.  Positions are modelled as Nat line numbers; the field stop stands for
the source field end, a reserved word in Lean. -/
structure Range where
  start : Nat
  stop : Nat
deriving DecidableEq, Repr

/-- Modelled from the spec (section 3) and the Diagnostic struct as used in
crates/diagnostics/src/diagnostics_tests.rs: severity, opaque message,
group_id (scoped to one (path, producer) pair), is_primary, is_disk_based and
is_unnecessary flags.  The opaque optional source/code/data payloads are
elided: the engine never inspects them. -/
structure Diagnostic where
  severity : DiagnosticSeverity
  message : String
  group_id : Nat
  is_primary : Bool
  is_disk_based : Bool
  is_unnecessary : Bool
deriving DecidableEq, Repr

/-- Modelled from the DiagnosticEntry struct as used in
crates/diagnostics/src/diagnostics_tests.rs: one reported finding, a range
plus its diagnostic payload. -/
structure DiagnosticEntry where
  range : Range
  diagnostic : Diagnostic
deriving DecidableEq, Repr

/-- Paths are modelled as natural numbers (opaque identifiers). -/
abbrev Path := Nat

/-- Producer (language-server) identifiers, as in LanguageServerId(n). -/
abbrev ProducerId := Nat

/-- Lookup in an association list with Nat keys. -/
def alGet {α : Type} : List (Nat × α) → Nat → Option α
  | [], _ => none
  | e :: rest, q => if q = e.1 then some e.2 else alGet rest q

/-- Insert-or-replace in an association list kept sorted by key. -/
def alSet {α : Type} : List (Nat × α) → Nat → α → List (Nat × α)
  | [], k, v => [(k, v)]
  | e :: rest, k, v =>
    if k < e.1 then (k, v) :: e :: rest
    else if k = e.1 then (k, v) :: rest
    else e :: alSet rest k v

/-- Remove a key from an association list. -/
def alErase {α : Type} : List (Nat × α) → Nat → List (Nat × α)
  | [], _ => []
  | e :: rest, k => if k = e.1 then rest else e :: alErase rest k

/-- Keys strictly increase along the list. -/
def alKeysSorted {α : Type} (l : List (Nat × α)) : Prop :=
  l.Pairwise fun a b => a.1 < b.1

theorem alGet_eq_none {α : Type} {l : List (Nat × α)} {q : Nat}
    (h : ∀ e ∈ l, e.1 ≠ q) : alGet l q = none := by
  induction l with
  | nil => rfl
  | cons e rest ih =>
    have hq : q ≠ e.1 := fun hh => h e (by simp) hh.symm
    simp [alGet, hq]
    exact ih fun e' he' => h e' (by simp [he'])

theorem alGet_alSet_self {α : Type} (l : List (Nat × α)) (k : Nat) (v : α) :
    alGet (alSet l k v) k = some v := by
  induction l with
  | nil => simp [alSet, alGet]
  | cons e rest ih =>
    by_cases h1 : k < e.1
    · simp [alSet, h1, alGet]
    · by_cases h2 : k = e.1
      · simp [alSet, h1, h2, alGet]
      · simp [alSet, h1, h2, alGet, ih]

theorem alGet_alSet_ne {α : Type} (l : List (Nat × α)) (k q : Nat) (v : α)
    (h : q ≠ k) : alGet (alSet l k v) q = alGet l q := by
  induction l with
  | nil => simp [alSet, alGet, h]
  | cons e rest ih =>
    by_cases h1 : k < e.1
    · simp [alSet, h1, alGet, h]
    · by_cases h2 : k = e.1
      · subst h2
        simp [alSet, h1, alGet, h]
      · simp [alSet, h1, h2, alGet, ih]

theorem alGet_alErase_ne {α : Type} (l : List (Nat × α)) (k q : Nat)
    (h : q ≠ k) : alGet (alErase l k) q = alGet l q := by
  induction l with
  | nil => rfl
  | cons e rest ih =>
    by_cases h1 : k = e.1
    · subst h1
      simp [alErase, alGet, h]
    · simp [alErase, h1, alGet, ih]

theorem alErase_sublist {α : Type} (l : List (Nat × α)) (k : Nat) :
    (alErase l k).Sublist l := by
  induction l with
  | nil => simp [alErase]
  | cons e rest ih =>
    by_cases h1 : k = e.1
    · rw [alErase, if_pos h1]
      exact List.sublist_cons_self e rest
    · rw [alErase, if_neg h1]
      exact ih.cons₂ e

theorem alGet_alErase_self {α : Type} (l : List (Nat × α)) (k : Nat)
    (hs : alKeysSorted l) : alGet (alErase l k) k = none := by
  induction l with
  | nil => rfl
  | cons e rest ih =>
    rcases List.pairwise_cons.mp hs with ⟨hhead, htail⟩
    by_cases h1 : k = e.1
    · subst h1
      simp only [alErase, if_pos rfl]
      exact alGet_eq_none fun e' he' => (Nat.ne_of_gt (hhead e' he'))
    · simp [alErase, h1, alGet, ih htail]

theorem alSet_mem {α : Type} (l : List (Nat × α)) (k : Nat) (v : α) :
    ∀ e ∈ alSet l k v, e.1 = k ∨ e ∈ l := by
  induction l with
  | nil =>
    intro e he
    rw [alSet] at he
    rcases List.mem_singleton.mp he with rfl
    left; rfl
  | cons x rest ih =>
    intro e he
    by_cases h1 : k < x.1
    · rw [alSet, if_pos h1] at he
      rcases List.mem_cons.mp he with rfl | h
      · left; rfl
      · right; exact h
    · by_cases h2 : k = x.1
      · rw [alSet, if_neg h1, if_pos h2] at he
        rcases List.mem_cons.mp he with rfl | h
        · left; rfl
        · right; exact List.mem_cons_of_mem x h
      · rw [alSet, if_neg h1, if_neg h2] at he
        rcases List.mem_cons.mp he with h | h
        · right; rw [h]; exact List.mem_cons_self x rest
        · rcases ih e h with h' | h'
          · left; exact h'
          · right; exact List.mem_cons_of_mem x h'

theorem alSet_sorted {α : Type} (l : List (Nat × α)) (k : Nat) (v : α)
    (hs : alKeysSorted l) : alKeysSorted (alSet l k v) := by
  induction l with
  | nil => simp [alSet, alKeysSorted]
  | cons x rest ih =>
    rcases List.pairwise_cons.mp hs with ⟨hhead, htail⟩
    by_cases h1 : k < x.1
    · simp only [alSet, if_pos h1]
      exact List.pairwise_cons.mpr
        ⟨fun e he => by
          rcases List.mem_cons.mp he with h | h
          · subst h; exact h1
          · exact Nat.lt_trans h1 (hhead e h), hs⟩
    · by_cases h2 : k = x.1
      · subst h2
        simp only [alSet, if_neg h1, if_pos rfl]
        exact List.pairwise_cons.mpr ⟨hhead, htail⟩
      · simp only [alSet, if_neg h1, if_neg h2]
        have hk : x.1 < k := by omega
        exact List.pairwise_cons.mpr
          ⟨fun e he => by
            rcases alSet_mem rest k v e he with h | h
            · rw [h]; exact hk
            · exact hhead e h,
           ih htail⟩

theorem alErase_sorted {α : Type} (l : List (Nat × α)) (k : Nat)
    (hs : alKeysSorted l) : alKeysSorted (alErase l k) :=
  List.Pairwise.sublist (alErase_sublist l k) hs

theorem alGet_head_self {α : Type} (e : Nat × α) (t : List (Nat × α)) :
    alGet (e :: t) e.1 = some e.2 := by
  simp [alGet]

theorem alExt {α : Type} : ∀ (l l' : List (Nat × α)), alKeysSorted l →
    alKeysSorted l' → (∀ q, alGet l q = alGet l' q) → l = l'
  | [], [], _, _, _ => rfl
  | [], e' :: t', _, _, h => by
    have := h e'.1
    rw [alGet_head_self] at this
    simp [alGet] at this
  | e :: t, [], _, _, h => by
    have := h e.1
    rw [alGet_head_self] at this
    simp [alGet] at this
  | e :: t, e' :: t', hs, hs', h => by
    rcases List.pairwise_cons.mp hs with ⟨hhead, htail⟩
    rcases List.pairwise_cons.mp hs' with ⟨hhead', htail'⟩
    have hkey : e.1 = e'.1 := by
      rcases Nat.lt_trichotomy e.1 e'.1 with hlt | heq | hgt
      · exfalso
        have h1 := h e.1
        rw [alGet_head_self] at h1
        have h2 : alGet (e' :: t') e.1 = none := by
          apply alGet_eq_none
          intro x hx
          rcases List.mem_cons.mp hx with hx | hx
          · subst hx; omega
          · have := hhead' x hx; omega
        rw [h2] at h1
        exact Option.noConfusion h1
      · exact heq
      · exfalso
        have h1 := h e'.1
        rw [alGet_head_self] at h1
        have h2 : alGet (e :: t) e'.1 = none := by
          apply alGet_eq_none
          intro x hx
          rcases List.mem_cons.mp hx with hx | hx
          · subst hx; omega
          · have := hhead x hx; omega
        rw [h2] at h1
        exact Option.noConfusion h1
    have hval : e.2 = e'.2 := by
      have h1 := h e.1
      rw [alGet_head_self] at h1
      rw [hkey, alGet_head_self] at h1
      exact Option.some.inj h1
    have htails : ∀ q, alGet t q = alGet t' q := by
      intro q
      by_cases hq : q = e.1
      · subst hq
        rw [alGet_eq_none fun x hx => Nat.ne_of_gt (hhead x hx),
          alGet_eq_none fun x hx => by
            have := hhead' x hx; omega]
      · have h1 := h q
        simp [alGet, hq] at h1
        rw [hkey] at hq
        simp [alGet, hq] at h1
        exact h1
    have : t = t' := alExt t t' htail htail' htails
    calc e :: t = (e.1, e.2) :: t := by rfl
    _ = (e'.1, e'.2) :: t' := by rw [hkey, hval, this]
    _ = e' :: t' := by rfl

/-- Modelled from the spec (section 3, Producer Ledger): per-(path, producer)
replaceable finding sets — the sole source of truth.  Represented as a sorted
association list from path to a sorted association list from producer id to
that producer's complete current set; entries are removed, not tombstoned,
when an update supplies an empty set. -/
abbrev Ledger := List (Path × List (ProducerId × List DiagnosticEntry))

/-- Modelled from the spec (section 3, Diagnostic Group): all findings sharing
a (path, producer, group_id) triple, in stable input order, with the owning
producer recorded. -/
structure DiagnosticGroup where
  producer : ProducerId
  group_id : Nat
  members : List DiagnosticEntry
deriving DecidableEq, Repr

/-- Modelled from the spec (section 4.3): the union of all (producer, finding)
pairs currently in the ledger for one path, in stable order (producers in id
order because the inner association list is sorted). -/
def collectPairs (entries : List (ProducerId × List DiagnosticEntry)) :
    List (ProducerId × DiagnosticEntry) :=
  entries.flatMap fun pe => pe.2.map fun d => (pe.1, d)

/-- First-occurrence-ordered deduplication, carrying the keys already seen. -/
def dedupFirstAux : List (ProducerId × Nat) → List (ProducerId × Nat) →
    List (ProducerId × Nat)
  | _, [] => []
  | seen, k :: rest =>
    if k ∈ seen then dedupFirstAux seen rest
    else k :: dedupFirstAux (k :: seen) rest

/-- First-occurrence-ordered deduplication of (producer, group_id) keys. -/
def dedupFirst (l : List (ProducerId × Nat)) : List (ProducerId × Nat) :=
  dedupFirstAux [] l

/-- Members of the partition cell for one (producer, group_id) key, in stable
input order. -/
def groupMembers (pairs : List (ProducerId × DiagnosticEntry))
    (key : ProducerId × Nat) : List DiagnosticEntry :=
  pairs.filterMap fun pd =>
    if pd.1 = key.1 ∧ pd.2.diagnostic.group_id = key.2 then some pd.2 else none

/-- Modelled from the spec (section 4.3, Grouping Engine): partition the
collected pairs by (producer_id, group_id). -/
def groupsOf (pairs : List (ProducerId × DiagnosticEntry)) : List DiagnosticGroup :=
  (dedupFirst (pairs.map fun pd => (pd.1, pd.2.diagnostic.group_id))).map fun key =>
    ⟨key.1, key.2, groupMembers pairs key⟩

/-- Modelled from the spec (section 4.1, Range Model): total order key on
findings — start position, then end position, then severity. -/
def entryKey (d : DiagnosticEntry) : Lex (Nat × Lex (Nat × Nat)) :=
  toLex (d.range.start, toLex (d.range.stop, d.diagnostic.severity.rank))

/-- The section 4.1 comparison on findings. -/
def entryLE (a b : DiagnosticEntry) : Prop := entryKey a ≤ entryKey b

instance : DecidableRel entryLE := fun a b =>
  inferInstanceAs (Decidable (entryKey a ≤ entryKey b))

instance : IsTotal DiagnosticEntry entryLE :=
  ⟨fun a b => le_total (entryKey a) (entryKey b)⟩

instance : IsTrans DiagnosticEntry entryLE :=
  ⟨fun _ _ _ hab hbc => le_trans hab hbc⟩

/-- Default finding, only used as the head fall-back of an impossible empty
group. -/
def defaultEntry : DiagnosticEntry :=
  ⟨⟨0, 0⟩, ⟨.error, "", 0, false, false, false⟩⟩

/-- Modelled from the spec (section 4.3): a group's representative is its first
member flagged is_primary in stable input order; when none is flagged, display
falls back to the group's first member in the section 4.1 sort order. -/
def DiagnosticGroup.reprEntry (g : DiagnosticGroup) : DiagnosticEntry :=
  match g.members.find? fun d => d.diagnostic.is_primary with
  | some d => d
  | none => (List.insertionSort entryLE g.members).headD defaultEntry

/-- Modelled from the spec (section 3, Path State): groups sort primarily by
representative start position, secondarily by severity (most severe first),
then by producer id, then by group_id, for determinism. -/
def DiagnosticGroup.sortKey (g : DiagnosticGroup) :
    Lex (Nat × Lex (Nat × Lex (Nat × Nat))) :=
  toLex (g.reprEntry.range.start,
    toLex (g.reprEntry.diagnostic.severity.rank, toLex (g.producer, g.group_id)))

/-- Path-wide order on groups. -/
def groupLE (a b : DiagnosticGroup) : Prop := a.sortKey ≤ b.sortKey

instance : DecidableRel groupLE := fun a b =>
  inferInstanceAs (Decidable (a.sortKey ≤ b.sortKey))

instance : IsTotal DiagnosticGroup groupLE :=
  ⟨fun a b => le_total a.sortKey b.sortKey⟩

instance : IsTrans DiagnosticGroup groupLE :=
  ⟨fun _ _ _ hab hbc => le_trans hab hbc⟩

/-- The deterministic path-wide sort of the derived groups. -/
def sortGroups (gs : List DiagnosticGroup) : List DiagnosticGroup :=
  List.insertionSort groupLE gs

/-- Modelled from the spec (section 3, Excerpt): a contiguous context-expanded
source range plus the identities (producer, group_id) of the groups it
displays.  The field stop stands for the context range end. -/
structure Excerpt where
  start : Nat
  stop : Nat
  groups : List (ProducerId × Nat)
deriving DecidableEq, Repr

/-- Modelled from the spec (section 4.4): context range = representative range
expanded by K lines on each side, clipped to the document bounds. -/
def toExcerpt (K docLen : Nat) (g : DiagnosticGroup) : Excerpt :=
  ⟨min (g.reprEntry.range.start - K) docLen,
   min (g.reprEntry.range.stop + K) docLen,
   [(g.producer, g.group_id)]⟩

/-- Merging two overlapping-or-adjacent excerpts extends the accumulated range
and keeps references to all contributing groups. -/
def mergeEx (a b : Excerpt) : Excerpt :=
  ⟨a.start, max a.stop b.stop, a.groups ++ b.groups⟩

/-- Modelled from the spec (section 4.4): walk the sorted context ranges with a
running accumulator; when the next range starts within the adjacency threshold
T of the accumulator's end, merge; otherwise emit the accumulator and start a
new one. -/
def mergeRun (T : Nat) : Excerpt → List Excerpt → List Excerpt
  | acc, [] => [acc]
  | acc, e :: es =>
    if e.start ≤ acc.stop + T then mergeRun T (mergeEx acc e) es
    else acc :: mergeRun T e es

/-- The merge walk over a whole path, empty when the path has no groups. -/
def mergeExcerpts (T : Nat) : List Excerpt → List Excerpt
  | [] => []
  | e :: es => mergeRun T e es

/-- Modelled from the spec (section 4.4, Excerpt Projector): the excerpt
sequence of one path is a pure function of the current ledger entries for that
path — derive groups, sort them, expand and clip context ranges, merge. -/
def projectEntries (K T docLen : Nat)
    (entries : List (ProducerId × List DiagnosticEntry)) : List Excerpt :=
  mergeExcerpts T ((sortGroups (groupsOf (collectPairs entries))).map (toExcerpt K docLen))

/-- The fixed configuration: K context lines, adjacency threshold T, and the
document length per path (owned by the external text-buffer collaborator). -/
structure Config where
  K : Nat
  T : Nat
  docLens : Path → Nat

/-- Projection of one path from the ledger. -/
def projectPath (cfg : Config) (led : Ledger) (p : Path) : List Excerpt :=
  projectEntries cfg.K cfg.T (cfg.docLens p) ((alGet led p).getD [])

/-- Modelled from the spec (section 8, Convergence): discard history and
recompute every path once from the final ledger contents alone; paths that no
longer yield excerpts are absent. -/
def fromScratch (cfg : Config) : Ledger → List (Path × List Excerpt)
  | [] => []
  | pe :: rest =>
    if (projectEntries cfg.K cfg.T (cfg.docLens pe.1) pe.2).isEmpty then
      fromScratch cfg rest
    else (pe.1, projectEntries cfg.K cfg.T (cfg.docLens pe.1) pe.2) :: fromScratch cfg rest

/-- Modelled from the spec (sections 2, 4.5 and 5): the whole engine state —
the ledger, the dirty set, the cached per-path excerpt view, the debounce
timer, a recomputation counter, and the advisory set of producers whose
full check is in progress. -/
structure SysState where
  ledger : Ledger
  dirty : List Path
  view : List (Path × List Excerpt)
  timerPending : Bool
  recomputations : Nat
  checking : List ProducerId

/-- The engine before any producer has reported. -/
def initState : SysState := ⟨[], [], [], false, 0, []⟩

/-- Modelled from the spec (section 4.2): a report replaces the
(path, producer) entry wholesale; an empty set deletes the entry, and the path
itself when its last entry goes. -/
def Ledger.report (led : Ledger) (p : Path) (prod : ProducerId)
    (batch : List DiagnosticEntry) : Ledger :=
  if batch.isEmpty then
    if (alErase ((alGet led p).getD []) prod).isEmpty then alErase led p
    else alSet led p (alErase ((alGet led p).getD []) prod)
  else alSet led p (alSet ((alGet led p).getD []) prod batch)

/-- Modelled from the spec (section 7): the single ingestion error class. -/
inductive ReportError where
  | InvalidRange
deriving DecidableEq, Repr

/-- A batch is malformed exactly when some range's end precedes its start. -/
def batchInvalid (batch : List DiagnosticEntry) : Bool :=
  batch.any fun d => decide (d.range.stop < d.range.start)

/-- Mark a path dirty, without duplicating it. -/
def markDirty (dirty : List Path) (p : Path) : List Path :=
  if p ∈ dirty then dirty else p :: dirty

/-- The successful part of a report: replace the ledger entry, mark the path
dirty, and (re)arm the single debounce timer — resetting a pending one rather
than stacking a second. -/
def applyReport (s : SysState) (p : Path) (prod : ProducerId)
    (batch : List DiagnosticEntry) : SysState :=
  { s with
    ledger := Ledger.report s.ledger p prod batch
    dirty := markDirty s.dirty p
    timerPending := true }

/-- Modelled from the spec (sections 4.2 and 7): report fails with
InvalidRange only when a range's end precedes its start — never for being out
of document bounds — rejecting the whole batch with the state untouched;
otherwise it replaces the ledger entry, marks the path dirty and (re)arms the
debounce timer. -/
def report_except (s : SysState) (p : Path) (prod : ProducerId)
    (batch : List DiagnosticEntry) : Except ReportError SysState :=
  if batchInvalid batch then .error .InvalidRange
  else .ok (applyReport s p prod batch)

/-- The operations producers and the consumer can perform, per the spec
(section 6): report, the forced flush update_stale_excerpts, the debounce
timer firing, and the advisory check lifecycle toggles. -/
inductive Op where
  | report (p : Path) (prod : ProducerId) (batch : List DiagnosticEntry)
  | update_stale_excerpts
  | tick
  | begin_check (prod : ProducerId)
  | end_check (prod : ProducerId)

/-- Modelled from the spec (sections 4.4 and 4.5): recompute one dirty path
purely from the ledger, replacing the cached excerpt state and dropping the
path from the view when nothing is left. -/
def recomputePath (cfg : Config) (led : Ledger) (view : List (Path × List Excerpt))
    (p : Path) : List (Path × List Excerpt) :=
  if (projectPath cfg led p).isEmpty then alErase view p
  else alSet view p (projectPath cfg led p)

/-- Modelled from the spec (section 4.5): on fire, recomputation runs for all
paths marked dirty since the last recomputation, then clears the dirty set and
the timer. -/
def flushState (cfg : Config) (s : SysState) : SysState :=
  { s with
    view := s.dirty.foldl (recomputePath cfg s.ledger) s.view
    dirty := []
    timerPending := false
    recomputations := s.recomputations + 1 }

/-- Modelled from the spec (sections 4.2 and 4.5): one engine step.  A report
whose batch is malformed leaves the state unchanged (the error is surfaced by
report_except); tick fires the debounce timer only when one is pending;
begin_check and end_check only toggle the advisory lifecycle flag. -/
def step (cfg : Config) (s : SysState) : Op → SysState
  | .report p prod batch =>
    if batchInvalid batch then s else applyReport s p prod batch
  | .update_stale_excerpts => flushState cfg s
  | .tick => if s.timerPending then flushState cfg s else s
  | .begin_check prod =>
    { s with checking := if prod ∈ s.checking then s.checking else prod :: s.checking }
  | .end_check prod =>
    { s with checking := s.checking.filter fun c => decide (c ≠ prod) }

/-- Run a sequence of operations. -/
def run (cfg : Config) (s : SysState) (ops : List Op) : SysState :=
  ops.foldl (step cfg) s

/-- Well-formed entry sets: every reported range has start at or before end,
which ingestion guarantees for every ledger the engine can reach. -/
def ValidEntries (entries : List (ProducerId × List DiagnosticEntry)) : Prop :=
  ∀ pr ∈ entries, ∀ d ∈ pr.2, d.range.start ≤ d.range.stop

/-- Well-formed ledger: every entry set in it is well-formed. -/
def ValidLedger (led : Ledger) : Prop :=
  ∀ pe ∈ led, ValidEntries pe.2

theorem mergeRun_head (T : Nat) : ∀ (es : List Excerpt) (acc : Excerpt),
    ∃ hd tl, mergeRun T acc es = hd :: tl ∧ hd.start = acc.start
  | [], acc => ⟨acc, [], rfl, rfl⟩
  | e :: es, acc => by
    rw [mergeRun]
    by_cases h : e.start ≤ acc.stop + T
    · rw [if_pos h]
      obtain ⟨hd, tl, heq, hst⟩ := mergeRun_head T es (mergeEx acc e)
      exact ⟨hd, tl, heq, hst⟩
    · rw [if_neg h]
      exact ⟨acc, mergeRun T e es, rfl, rfl⟩

theorem mergeRun_chain (T : Nat) : ∀ (es : List Excerpt) (acc : Excerpt),
    acc.start ≤ acc.stop → (∀ e ∈ es, e.start ≤ e.stop) →
    es.Pairwise (fun a b => a.start ≤ b.start) →
    List.Chain' (fun a b => a.stop < b.start) (mergeRun T acc es) ∧
      ∀ y ∈ mergeRun T acc es, y.start ≤ y.stop
  | [], acc, hacc, _, _ => by
    refine ⟨List.chain'_singleton acc, ?_⟩
    intro y hy
    rcases List.mem_singleton.mp hy with rfl
    exact hacc
  | e :: es, acc, hacc, hwf, hsort => by
    rw [mergeRun]
    rcases List.pairwise_cons.mp hsort with ⟨hehead, hsort'⟩
    by_cases h : e.start ≤ acc.stop + T
    · rw [if_pos h]
      exact mergeRun_chain T es (mergeEx acc e)
        (le_trans hacc (le_max_left acc.stop e.stop))
        (fun x hx => hwf x (List.mem_cons_of_mem e hx)) hsort'
    · rw [if_neg h]
      have hlt : acc.stop < e.start := by omega
      obtain ⟨ih1, ih2⟩ := mergeRun_chain T es e
        (hwf e (List.mem_cons_self e es))
        (fun x hx => hwf x (List.mem_cons_of_mem e hx)) hsort'
      refine ⟨List.chain'_cons'.mpr ⟨?_, ih1⟩, ?_⟩
      · intro y hy
        obtain ⟨hd, tl, heq, hst⟩ := mergeRun_head T es e
        rw [heq] at hy
        simp only [List.head?_cons, Option.mem_some_iff] at hy
        rw [hy] at hst
        rw [hst]
        exact hlt
      · intro y hy
        rcases List.mem_cons.mp hy with rfl | hy
        · exact hacc
        · exact ih2 y hy

theorem mergeRun_bound (T B : Nat) : ∀ (es : List Excerpt) (acc : Excerpt),
    acc.start ≤ B → acc.stop ≤ B → (∀ e ∈ es, e.start ≤ B ∧ e.stop ≤ B) →
    ∀ y ∈ mergeRun T acc es, y.start ≤ B ∧ y.stop ≤ B
  | [], acc, h1, h2, _ => by
    intro y hy
    rcases List.mem_singleton.mp hy with rfl
    exact ⟨h1, h2⟩
  | e :: es, acc, h1, h2, hb => by
    rw [mergeRun]
    by_cases h : e.start ≤ acc.stop + T
    · rw [if_pos h]
      refine mergeRun_bound T B es (mergeEx acc e) h1 ?_
        fun x hx => hb x (List.mem_cons_of_mem e hx)
      have := (hb e (List.mem_cons_self e es)).2
      show max acc.stop e.stop ≤ B
      omega
    · rw [if_neg h]
      intro y hy
      rcases List.mem_cons.mp hy with rfl | hy
      · exact ⟨h1, h2⟩
      · exact mergeRun_bound T B es e (hb e (List.mem_cons_self e es)).1
          (hb e (List.mem_cons_self e es)).2
          (fun x hx => hb x (List.mem_cons_of_mem e hx)) y hy

theorem mergeExcerpts_chain (T : Nat) (es : List Excerpt)
    (hwf : ∀ e ∈ es, e.start ≤ e.stop)
    (hsort : es.Pairwise fun a b => a.start ≤ b.start) :
    List.Chain' (fun a b => a.stop < b.start) (mergeExcerpts T es) ∧
      ∀ y ∈ mergeExcerpts T es, y.start ≤ y.stop := by
  cases es with
  | nil => exact ⟨List.chain'_nil, by intro y hy; cases hy⟩
  | cons e es =>
    rw [mergeExcerpts]
    exact mergeRun_chain T es e (hwf e (List.mem_cons_self e es))
      (fun x hx => hwf x (List.mem_cons_of_mem e hx))
      (List.pairwise_cons.mp hsort).2

theorem mergeExcerpts_bound (T B : Nat) (es : List Excerpt)
    (hb : ∀ e ∈ es, e.start ≤ B ∧ e.stop ≤ B) :
    ∀ y ∈ mergeExcerpts T es, y.start ≤ B ∧ y.stop ≤ B := by
  cases es with
  | nil => intro y hy; cases hy
  | cons e es =>
    rw [mergeExcerpts]
    exact mergeRun_bound T B es e (hb e (List.mem_cons_self e es)).1
      (hb e (List.mem_cons_self e es)).2
      fun x hx => hb x (List.mem_cons_of_mem e hx)

theorem sortGroups_sorted (gs : List DiagnosticGroup) :
    (sortGroups gs).Pairwise groupLE :=
  List.sorted_insertionSort groupLE gs

theorem sortGroups_perm (gs : List DiagnosticGroup) :
    ∀ g ∈ sortGroups gs, g ∈ gs := fun g hg =>
  (List.perm_insertionSort groupLE gs).mem_iff.mp hg

theorem groupLE_start {a b : DiagnosticGroup} (h : groupLE a b) :
    a.reprEntry.range.start ≤ b.reprEntry.range.start := by
  unfold groupLE DiagnosticGroup.sortKey at h
  rcases (Prod.Lex.le_iff _ _).mp h with h | ⟨h, _⟩
  · exact le_of_lt h
  · exact le_of_eq h

theorem pairwise_start_map (K docLen : Nat) (gs : List DiagnosticGroup)
    (h : gs.Pairwise groupLE) :
    (gs.map (toExcerpt K docLen)).Pairwise fun a b => a.start ≤ b.start := by
  refine List.Pairwise.map (toExcerpt K docLen) ?_ h
  intro a b hab
  show min (a.reprEntry.range.start - K) docLen ≤
    min (b.reprEntry.range.start - K) docLen
  exact min_le_min (Nat.sub_le_sub_right (groupLE_start hab) K) le_rfl

theorem reprEntry_mem (g : DiagnosticGroup) :
    g.reprEntry ∈ g.members ∨ g.reprEntry = defaultEntry := by
  unfold DiagnosticGroup.reprEntry
  cases hf : g.members.find? fun d => d.diagnostic.is_primary with
  | some d =>
    left
    exact List.mem_of_find?_eq_some hf
  | none =>
    cases hs : List.insertionSort entryLE g.members with
    | nil =>
      right
      rfl
    | cons x xs =>
      left
      show x ∈ g.members
      have hx : x ∈ List.insertionSort entryLE g.members := by
        rw [hs]
        exact List.mem_cons_self x xs
      exact ((List.perm_insertionSort entryLE g.members).mem_iff).mp hx

theorem groupMembers_from (pairs : List (ProducerId × DiagnosticEntry))
    (key : ProducerId × Nat) :
    ∀ d ∈ groupMembers pairs key, ∃ pd ∈ pairs, pd.2 = d := by
  intro d hd
  rcases List.mem_filterMap.mp hd with ⟨pd, hpd, heq⟩
  refine ⟨pd, hpd, ?_⟩
  by_cases h : pd.1 = key.1 ∧ pd.2.diagnostic.group_id = key.2
  · rw [if_pos h] at heq
    exact Option.some.inj heq
  · rw [if_neg h] at heq
    cases heq

theorem collectPairs_from (entries : List (ProducerId × List DiagnosticEntry)) :
    ∀ pd ∈ collectPairs entries, ∃ pr ∈ entries, pd.2 ∈ pr.2 := by
  intro pd hpd
  rcases List.mem_flatMap.mp hpd with ⟨pe, hpe, hmem⟩
  rcases List.mem_map.mp hmem with ⟨d, hd, heq⟩
  refine ⟨pe, hpe, ?_⟩
  rw [heq.symm]
  exact hd

theorem groupsOf_members (pairs : List (ProducerId × DiagnosticEntry)) :
    ∀ g ∈ groupsOf pairs, ∀ d ∈ g.members, ∃ pd ∈ pairs, pd.2 = d := by
  intro g hg
  rcases List.mem_map.mp hg with ⟨key, _, heq⟩
  intro d hd
  rw [heq.symm] at hd
  exact groupMembers_from pairs key d hd

theorem reprEntry_valid (entries : List (ProducerId × List DiagnosticEntry))
    (hv : ValidEntries entries) (g : DiagnosticGroup)
    (hg : g ∈ groupsOf (collectPairs entries)) :
    g.reprEntry.range.start ≤ g.reprEntry.range.stop := by
  rcases reprEntry_mem g with hmem | hdef
  · rcases groupsOf_members (collectPairs entries) g hg g.reprEntry hmem with ⟨pd, hpd, heq⟩
    rcases collectPairs_from entries pd hpd with ⟨pr, hpr, hd⟩
    rw [heq] at hd
    exact hv pr hpr g.reprEntry hd
  · rw [hdef]
    exact Nat.le_refl 0

theorem projectEntries_chain (K T docLen : Nat)
    (entries : List (ProducerId × List DiagnosticEntry)) (hv : ValidEntries entries) :
    List.Chain' (fun a b => a.stop < b.start) (projectEntries K T docLen entries) ∧
      ∀ y ∈ projectEntries K T docLen entries, y.start ≤ y.stop := by
  rw [projectEntries]
  apply mergeExcerpts_chain
  · intro e he
    rcases List.mem_map.mp he with ⟨g, hg, heq⟩
    have hval := reprEntry_valid entries hv g (sortGroups_perm _ g hg)
    rw [heq.symm]
    show min (g.reprEntry.range.start - K) docLen ≤
      min (g.reprEntry.range.stop + K) docLen
    exact min_le_min (by omega) le_rfl
  · exact pairwise_start_map K docLen _ (sortGroups_sorted _)

theorem projectEntries_bound (K T docLen : Nat)
    (entries : List (ProducerId × List DiagnosticEntry)) :
    ∀ y ∈ projectEntries K T docLen entries, y.start ≤ docLen ∧ y.stop ≤ docLen := by
  rw [projectEntries]
  apply mergeExcerpts_bound
  intro e he
  rcases List.mem_map.mp he with ⟨g, _, heq⟩
  rw [heq.symm]
  exact ⟨min_le_right _ _, min_le_right _ _⟩

theorem alGet_mem {α : Type} : ∀ (l : List (Nat × α)) (q : Nat) (v : α),
    alGet l q = some v → (q, v) ∈ l
  | [], _, _, h => by cases h
  | e :: t, q, v, h => by
    rw [alGet] at h
    by_cases hq : q = e.1
    · rw [if_pos hq] at h
      have hv : e.2 = v := Option.some.inj h
      have heq : (q, v) = e := by rw [hq, hv.symm]
      rw [heq]
      exact List.mem_cons_self e t
    · rw [if_neg hq] at h
      exact List.mem_cons_of_mem e (alGet_mem t q v h)

theorem report_alGet_ne (led : Ledger) (p : Path) (prod : ProducerId)
    (batch : List DiagnosticEntry) (q : Path) (h : q ≠ p) :
    alGet (Ledger.report led p prod batch) q = alGet led q := by
  rw [Ledger.report]
  by_cases hb : batch.isEmpty
  · rw [if_pos hb]
    by_cases hi : (alErase ((alGet led p).getD []) prod).isEmpty
    · rw [if_pos hi]
      exact alGet_alErase_ne led p q h
    · rw [if_neg hi]
      exact alGet_alSet_ne led p q _ h
  · rw [if_neg hb]
    exact alGet_alSet_ne led p q _ h

theorem report_sorted (led : Ledger) (p : Path) (prod : ProducerId)
    (batch : List DiagnosticEntry) (hs : alKeysSorted led) :
    alKeysSorted (Ledger.report led p prod batch) := by
  rw [Ledger.report]
  by_cases hb : batch.isEmpty
  · rw [if_pos hb]
    by_cases hi : (alErase ((alGet led p).getD []) prod).isEmpty
    · rw [if_pos hi]
      exact alErase_sorted led p hs
    · rw [if_neg hi]
      exact alSet_sorted led p _ hs
  · rw [if_neg hb]
    exact alSet_sorted led p _ hs

theorem recomputePath_sorted (cfg : Config) (led : Ledger)
    (view : List (Path × List Excerpt)) (p : Path) (hs : alKeysSorted view) :
    alKeysSorted (recomputePath cfg led view p) := by
  rw [recomputePath]
  by_cases he : (projectPath cfg led p).isEmpty
  · rw [if_pos he]
    exact alErase_sorted view p hs
  · rw [if_neg he]
    exact alSet_sorted view p _ hs

theorem foldl_recompute_sorted (cfg : Config) (led : Ledger) :
    ∀ (dirty : List Path) (view : List (Path × List Excerpt)),
    alKeysSorted view → alKeysSorted (dirty.foldl (recomputePath cfg led) view)
  | [], _, hs => hs
  | q :: dirty, view, hs => by
    rw [List.foldl_cons]
    exact foldl_recompute_sorted cfg led dirty _ (recomputePath_sorted cfg led view q hs)

theorem alGet_foldl_recompute (cfg : Config) (led : Ledger) :
    ∀ (dirty : List Path) (view : List (Path × List Excerpt)),
    alKeysSorted view → ∀ p,
    alGet (dirty.foldl (recomputePath cfg led) view) p =
      if p ∈ dirty then
        (if (projectPath cfg led p).isEmpty then none else some (projectPath cfg led p))
      else alGet view p
  | [], view, _, p => by simp
  | q :: dirty, view, hs, p => by
    rw [List.foldl_cons,
      alGet_foldl_recompute cfg led dirty _ (recomputePath_sorted cfg led view q hs) p]
    by_cases hd : p ∈ dirty
    · rw [if_pos hd, if_pos (List.mem_cons_of_mem q hd)]
    · rw [if_neg hd]
      by_cases hq : p = q
      · subst hq
        rw [if_pos (List.mem_cons_self p dirty), recomputePath]
        by_cases he : (projectPath cfg led p).isEmpty
        · rw [if_pos he, if_pos he]
          exact alGet_alErase_self view p hs
        · rw [if_neg he, if_neg he]
          exact alGet_alSet_self view p _
      · have hnm : ¬p ∈ q :: dirty := by
          intro hmem
          rcases List.mem_cons.mp hmem with h | h
          · exact hq h
          · exact hd h
        rw [if_neg hnm, recomputePath]
        by_cases he : (projectPath cfg led q).isEmpty
        · rw [if_pos he]
          exact alGet_alErase_ne view q p hq
        · rw [if_neg he]
          exact alGet_alSet_ne view q p _ hq

theorem fromScratch_keys (cfg : Config) : ∀ (led : Ledger) (e : Path × List Excerpt),
    e ∈ fromScratch cfg led → ∃ pe ∈ led, e.1 = pe.1
  | [], _, he => by cases he
  | pe :: rest, e, he => by
    rw [fromScratch] at he
    by_cases hex : (projectEntries cfg.K cfg.T (cfg.docLens pe.1) pe.2).isEmpty
    · rw [if_pos hex] at he
      rcases fromScratch_keys cfg rest e he with ⟨q, hq, heq⟩
      exact ⟨q, List.mem_cons_of_mem pe hq, heq⟩
    · rw [if_neg hex] at he
      rcases List.mem_cons.mp he with h | h
      · exact ⟨pe, List.mem_cons_self pe rest, by rw [h]⟩
      · rcases fromScratch_keys cfg rest e h with ⟨q, hq, heq⟩
        exact ⟨q, List.mem_cons_of_mem pe hq, heq⟩

theorem fromScratch_sorted (cfg : Config) : ∀ (led : Ledger), alKeysSorted led →
    alKeysSorted (fromScratch cfg led)
  | [], _ => List.Pairwise.nil
  | pe :: rest, hs => by
    rcases List.pairwise_cons.mp hs with ⟨hhead, htail⟩
    rw [fromScratch]
    by_cases hex : (projectEntries cfg.K cfg.T (cfg.docLens pe.1) pe.2).isEmpty
    · rw [if_pos hex]
      exact fromScratch_sorted cfg rest htail
    · rw [if_neg hex]
      refine List.pairwise_cons.mpr ⟨?_, fromScratch_sorted cfg rest htail⟩
      intro e he
      rcases fromScratch_keys cfg rest e he with ⟨q, hq, heq⟩
      show pe.1 < e.1
      rw [heq]
      exact hhead q hq

theorem alGet_fromScratch (cfg : Config) : ∀ (led : Ledger), alKeysSorted led →
    ∀ p, alGet (fromScratch cfg led) p =
      if (projectPath cfg led p).isEmpty then none else some (projectPath cfg led p)
  | [], _, p => by rfl
  | pe :: rest, hs, p => by
    rcases List.pairwise_cons.mp hs with ⟨hhead, htail⟩
    rw [fromScratch]
    by_cases hq : p = pe.1
    · subst hq
      have hrhs : (alGet (pe :: rest) pe.1).getD [] = pe.2 := by
        rw [alGet, if_pos rfl]
        rfl
      have hpp : projectPath cfg (pe :: rest) pe.1 =
          projectEntries cfg.K cfg.T (cfg.docLens pe.1) pe.2 := by
        rw [projectPath, hrhs]
      by_cases hex : (projectEntries cfg.K cfg.T (cfg.docLens pe.1) pe.2).isEmpty
      · rw [if_pos hex, hpp, if_pos hex]
        apply alGet_eq_none
        intro e he
        rcases fromScratch_keys cfg rest e he with ⟨q, hq', heq⟩
        rw [heq]
        exact Nat.ne_of_gt (hhead q hq')
      · rw [if_neg hex, hpp, if_neg hex, alGet, if_pos rfl]
    · have hpp : projectPath cfg (pe :: rest) p = projectPath cfg rest p := by
        rw [projectPath, projectPath, alGet, if_neg hq]
      by_cases hex : (projectEntries cfg.K cfg.T (cfg.docLens pe.1) pe.2).isEmpty
      · rw [if_pos hex, hpp]
        exact alGet_fromScratch cfg rest htail p
      · rw [if_neg hex, alGet, if_neg hq, hpp]
        exact alGet_fromScratch cfg rest htail p

/-- Sortedness of the ledger representation at both levels. -/
def LedgerSorted (led : Ledger) : Prop :=
  alKeysSorted led ∧ ∀ pe ∈ led, alKeysSorted pe.2

/-- The convergence invariant: the ledger and view representations are
canonical, and on every clean path the cached view agrees with the
from-scratch projection of the current ledger. -/
def Inv (cfg : Config) (s : SysState) : Prop :=
  alKeysSorted s.ledger ∧ alKeysSorted s.view ∧
    ∀ p, p ∉ s.dirty → alGet s.view p = alGet (fromScratch cfg s.ledger) p

theorem inv_init (cfg : Config) : Inv cfg initState :=
  ⟨List.Pairwise.nil, List.Pairwise.nil, fun _ _ => rfl⟩

theorem flush_view (cfg : Config) (s : SysState) (hinv : Inv cfg s) :
    (flushState cfg s).view = fromScratch cfg s.ledger := by
  rcases hinv with ⟨hled, hview, hclean⟩
  show s.dirty.foldl (recomputePath cfg s.ledger) s.view = fromScratch cfg s.ledger
  apply alExt
  · exact foldl_recompute_sorted cfg s.ledger s.dirty s.view hview
  · exact fromScratch_sorted cfg s.ledger hled
  · intro q
    rw [alGet_foldl_recompute cfg s.ledger s.dirty s.view hview q]
    by_cases hd : q ∈ s.dirty
    · rw [if_pos hd, alGet_fromScratch cfg s.ledger hled q]
    · rw [if_neg hd]
      exact hclean q hd

theorem not_mem_markDirty {dirty : List Path} {p q : Path}
    (h : q ∉ markDirty dirty p) : q ≠ p ∧ q ∉ dirty := by
  rw [markDirty] at h
  by_cases hp : p ∈ dirty
  · rw [if_pos hp] at h
    exact ⟨fun heq => h (heq ▸ hp), h⟩
  · rw [if_neg hp] at h
    exact ⟨fun heq => h (by rw [heq]; exact List.mem_cons_self p dirty),
      fun hq => h (List.mem_cons_of_mem p hq)⟩

theorem projectPath_report_ne (cfg : Config) (led : Ledger) (p : Path)
    (prod : ProducerId) (batch : List DiagnosticEntry) (q : Path) (h : q ≠ p) :
    projectPath cfg (Ledger.report led p prod batch) q = projectPath cfg led q := by
  rw [projectPath, projectPath, report_alGet_ne led p prod batch q h]

theorem inv_flush (cfg : Config) (s : SysState) (hinv : Inv cfg s) :
    Inv cfg (flushState cfg s) := by
  have hv := flush_view cfg s hinv
  rcases hinv with ⟨hled, _, _⟩
  refine ⟨hled, ?_, ?_⟩
  · show alKeysSorted (flushState cfg s).view
    rw [hv]
    exact fromScratch_sorted cfg s.ledger hled
  · intro q _
    show alGet (flushState cfg s).view q = alGet (fromScratch cfg (flushState cfg s).ledger) q
    rw [hv]
    rfl

theorem inv_step (cfg : Config) (s : SysState) (op : Op) (hinv : Inv cfg s) :
    Inv cfg (step cfg s op) := by
  cases op with
  | report p prod batch =>
    show Inv cfg (if batchInvalid batch then s else applyReport s p prod batch)
    by_cases hb : batchInvalid batch
    · rw [if_pos hb]
      exact hinv
    · rw [if_neg hb]
      rcases hinv with ⟨hled, hview, hclean⟩
      refine ⟨report_sorted s.ledger p prod batch hled, hview, ?_⟩
      intro q hq
      rcases not_mem_markDirty hq with ⟨hqp, hqd⟩
      show alGet s.view q = alGet (fromScratch cfg (Ledger.report s.ledger p prod batch)) q
      rw [alGet_fromScratch cfg _ (report_sorted s.ledger p prod batch hled) q,
        projectPath_report_ne cfg s.ledger p prod batch q hqp,
        ← alGet_fromScratch cfg s.ledger hled q]
      exact hclean q hqd
  | update_stale_excerpts => exact inv_flush cfg s hinv
  | tick =>
    show Inv cfg (if s.timerPending then flushState cfg s else s)
    by_cases ht : s.timerPending
    · rw [if_pos ht]
      exact inv_flush cfg s hinv
    · rw [if_neg ht]
      exact hinv
  | begin_check prod => exact hinv
  | end_check prod => exact hinv

theorem inv_run (cfg : Config) : ∀ (ops : List Op) (s : SysState),
    Inv cfg s → Inv cfg (run cfg s ops)
  | [], _, h => h
  | op :: ops, s, h => inv_run cfg ops (step cfg s op) (inv_step cfg s op h)

theorem batchInvalid_false {batch : List DiagnosticEntry}
    (hvalid : ∀ d ∈ batch, d.range.start ≤ d.range.stop) :
    batchInvalid batch = false := by
  rw [batchInvalid, List.any_eq_false]
  intro d hd
  simp only [decide_eq_true_eq]
  exact Nat.not_lt.mpr (hvalid d hd)

theorem step_report_valid (cfg : Config) (s : SysState) (p : Path)
    (prod : ProducerId) (batch : List DiagnosticEntry)
    (hb : batchInvalid batch = false) :
    step cfg s (.report p prod batch) = applyReport s p prod batch := by
  show (if batchInvalid batch then s else applyReport s p prod batch) = _
  rw [hb]
  rfl

theorem inner_sorted (led : Ledger) (p : Path) (hs : LedgerSorted led) :
    alKeysSorted ((alGet led p).getD []) := by
  cases hg : alGet led p with
  | none => exact List.Pairwise.nil
  | some inner => exact hs.2 (p, inner) (alGet_mem led p inner hg)

theorem validEntries_getD (led : Ledger) (p : Path) (hv : ValidLedger led) :
    ValidEntries ((alGet led p).getD []) := by
  cases hg : alGet led p with
  | none =>
    intro pr hpr d _
    cases hpr
  | some entries => exact hv (p, entries) (alGet_mem led p entries hg)

theorem mem_markDirty_self (dirty : List Path) (p : Path) : p ∈ markDirty dirty p := by
  rw [markDirty]
  by_cases h : p ∈ dirty
  · rw [if_pos h]
    exact h
  · rw [if_neg h]
    exact List.mem_cons_self p dirty

theorem projectPath_of_none (cfg : Config) (led : Ledger) (p : Path)
    (h : alGet led p = none) : projectPath cfg led p = [] := by
  rw [projectPath, h]
  rfl

theorem validLedger_of_all (led : Ledger)
    (h : (led.all fun pe => pe.2.all fun pr => pr.2.all fun d =>
      decide (d.range.start ≤ d.range.stop)) = true) : ValidLedger led := by
  intro pe hpe pr hpr d hd
  have h1 := List.all_eq_true.mp h pe hpe
  have h2 := List.all_eq_true.mp h1 pr hpr
  have h3 := List.all_eq_true.mp h2 d hd
  exact of_decide_eq_true h3

/-- Claim C1 (Convergence): for every sequence of operations — reports,
possibly interleaved with forced flushes via update_stale_excerpts — a final
forced flush leaves the incrementally maintained view equal to the excerpt
state obtained by discarding history and recomputing once from the final
ledger contents alone, so the derived state is a pure function of the final
per-(path, producer) sets, independent of update order. -/
theorem convergence (cfg : Config) (ops : List Op) :
    (run cfg initState (ops ++ [Op.update_stale_excerpts])).view =
      fromScratch cfg (run cfg initState (ops ++ [Op.update_stale_excerpts])).ledger := by
  have h1 : run cfg initState (ops ++ [Op.update_stale_excerpts]) =
      flushState cfg (run cfg initState ops) := by
    rw [run, List.foldl_append]
    rfl
  rw [h1]
  have h2 : (flushState cfg (run cfg initState ops)).ledger =
      (run cfg initState ops).ledger := rfl
  rw [h2]
  exact flush_view cfg (run cfg initState ops) (inv_run cfg ops initState (inv_init cfg))

/-- Claim C2 (Determinism): recomputation is deterministic in the ledger — any
two operation histories that leave the ledger in the same final contents
produce, after a recomputation, identical excerpt views, ordering included. -/
theorem determinism_of_ledger (cfg : Config) (ops1 ops2 : List Op)
    (h : (run cfg initState ops1).ledger = (run cfg initState ops2).ledger) :
    (flushState cfg (run cfg initState ops1)).view =
      (flushState cfg (run cfg initState ops2)).view := by
  rw [flush_view cfg _ (inv_run cfg ops1 initState (inv_init cfg)),
    flush_view cfg _ (inv_run cfg ops2 initState (inv_init cfg)), h]

/-- Claim C3 (Ordering invariant): for every path of a well-formed ledger the
recomputed excerpt sequence is strictly increasing by start position and
pairwise non-overlapping: each excerpt ends strictly before the next begins
(overlapping or adjacent context ranges having been merged), and each excerpt
is itself a well-formed range. -/
theorem excerpts_sorted_nonoverlapping (cfg : Config) (led : Ledger) (p : Path)
    (hv : ValidLedger led) :
    List.Chain' (fun a b => a.stop < b.start) (projectPath cfg led p) ∧
      ∀ e ∈ projectPath cfg led p, e.start ≤ e.stop := by
  rw [projectPath]
  exact projectEntries_chain cfg.K cfg.T (cfg.docLens p) _ (validEntries_getD led p hv)

/-- Claim C4 (Clipping safety): a batch whose ranges are well-ordered is
ingested successfully even when its positions lie beyond the document length
(up to any margin); the ranges are stored in the ledger unchanged, and only
at projection time is every excerpt clipped to the valid document bounds. -/
theorem clipping_safety (cfg : Config) (s : SysState) (p : Path)
    (prod : ProducerId) (batch : List DiagnosticEntry) (margin : Nat)
    (hvalid : ∀ d ∈ batch, d.range.start ≤ d.range.stop)
    (hmargin : ∀ d ∈ batch, d.range.stop ≤ cfg.docLens p + margin)
    (hne : ¬batch.isEmpty) :
    report_except s p prod batch = .ok (applyReport s p prod batch) ∧
    alGet ((alGet (applyReport s p prod batch).ledger p).getD []) prod = some batch ∧
    (∀ (led : Ledger) (q : Path), ∀ e ∈ projectPath cfg led q,
      e.start ≤ cfg.docLens q ∧ e.stop ≤ cfg.docLens q) := by
  refine ⟨?_, ?_, ?_⟩
  · rw [report_except, if_neg (by simp [batchInvalid_false hvalid])]
  · show alGet ((alGet (Ledger.report s.ledger p prod batch) p).getD []) prod = some batch
    rw [Ledger.report, if_neg (by simp [hne]), alGet_alSet_self]
    exact alGet_alSet_self _ prod batch
  · intro led q e he
    exact projectEntries_bound cfg.K cfg.T (cfg.docLens q) _ e he

/-- Claim C5 (InvalidRange error handling and atomicity): report fails with
InvalidRange exactly when some range's end precedes its start — never merely
for being out of document bounds; a malformed batch leaves the whole state,
the ledger entry included, unchanged; and every batch whose ranges satisfy
start at or before end succeeds and replaces the (path, producer) entry. -/
theorem report_invalid_range (cfg : Config) (s : SysState) (p : Path)
    (prod : ProducerId) (batch : List DiagnosticEntry)
    (hsort : LedgerSorted s.ledger) :
    (report_except s p prod batch = .error .InvalidRange ↔
      ∃ d ∈ batch, d.range.stop < d.range.start) ∧
    (batchInvalid batch = true → step cfg s (.report p prod batch) = s) ∧
    ((∀ d ∈ batch, d.range.start ≤ d.range.stop) →
      report_except s p prod batch = .ok (applyReport s p prod batch) ∧
      alGet ((alGet (applyReport s p prod batch).ledger p).getD []) prod =
        (if batch.isEmpty then none else some batch)) := by
  refine ⟨⟨?_, ?_⟩, ?_, ?_⟩
  · intro h
    by_cases hb : batchInvalid batch
    · rcases List.any_eq_true.mp hb with ⟨d, hd, hdec⟩
      exact ⟨d, hd, of_decide_eq_true hdec⟩
    · rw [report_except, if_neg hb] at h
      cases h
  · intro ⟨d, hd, hlt⟩
    have hb : batchInvalid batch = true :=
      List.any_eq_true.mpr ⟨d, hd, decide_eq_true hlt⟩
    rw [report_except, if_pos hb]
  · intro hb
    show (if batchInvalid batch then s else applyReport s p prod batch) = s
    rw [if_pos hb]
  · intro hvalid
    refine ⟨by rw [report_except, if_neg (by simp [batchInvalid_false hvalid])], ?_⟩
    show alGet ((alGet (Ledger.report s.ledger p prod batch) p).getD []) prod = _
    by_cases hbe : batch.isEmpty
    · rw [Ledger.report, if_pos hbe, if_pos hbe]
      by_cases hi : (alErase ((alGet s.ledger p).getD []) prod).isEmpty
      · rw [if_pos hi, alGet_alErase_self s.ledger p hsort.1]
        rfl
      · rw [if_neg hi, alGet_alSet_self]
        exact alGet_alErase_self _ prod (inner_sorted s.ledger p hsort)
    · rw [Ledger.report, if_neg hbe, if_neg hbe, alGet_alSet_self]
      exact alGet_alSet_self _ prod batch

/-- Claim C6 (Idle-replace): after a producer with a prior non-empty set
reports an empty set for a path, its ledger entry is deleted and the remaining
entries for the path are exactly the previous ones minus that producer; and
when no producer is left reporting for the path, the path disappears from the
ledger and — after the next recomputation — from the projection entirely. -/
theorem idle_replace (cfg : Config) (s : SysState) (p : Path) (prod : ProducerId)
    (anns0 : List DiagnosticEntry)
    (hprev : alGet ((alGet s.ledger p).getD []) prod = some anns0)
    (hne : anns0 ≠ [])
    (hsort : LedgerSorted s.ledger)
    (hview : alKeysSorted s.view) :
    alGet ((alGet (step cfg s (.report p prod [])).ledger p).getD []) prod = none ∧
    (alGet (step cfg s (.report p prod [])).ledger p).getD [] =
      alErase ((alGet s.ledger p).getD []) prod ∧
    (alErase ((alGet s.ledger p).getD []) prod = [] →
      alGet (step cfg s (.report p prod [])).ledger p = none ∧
      alGet (flushState cfg (step cfg s (.report p prod []))).view p = none) := by
  have hstep : step cfg s (.report p prod []) = applyReport s p prod [] :=
    step_report_valid cfg s p prod [] rfl
  have hrep : Ledger.report s.ledger p prod [] =
      if (alErase ((alGet s.ledger p).getD []) prod).isEmpty then alErase s.ledger p
      else alSet s.ledger p (alErase ((alGet s.ledger p).getD []) prod) := rfl
  rw [hstep]
  show alGet ((alGet (Ledger.report s.ledger p prod []) p).getD []) prod = none ∧
    (alGet (Ledger.report s.ledger p prod []) p).getD [] =
      alErase ((alGet s.ledger p).getD []) prod ∧ _
  rw [hrep]
  by_cases hi : (alErase ((alGet s.ledger p).getD []) prod).isEmpty
  · rw [if_pos hi]
    have hemp : alErase ((alGet s.ledger p).getD []) prod = [] :=
      List.isEmpty_iff.mp hi
    rw [alGet_alErase_self s.ledger p hsort.1]
    refine ⟨rfl, hemp.symm, ?_⟩
    intro _
    constructor
    · show alGet (Ledger.report s.ledger p prod []) p = none
      rw [hrep, if_pos hi]
      exact alGet_alErase_self s.ledger p hsort.1
    · show alGet ((markDirty s.dirty p).foldl
        (recomputePath cfg (Ledger.report s.ledger p prod [])) s.view) p = none
      rw [hrep, if_pos hi,
        alGet_foldl_recompute cfg _ _ s.view hview p,
        if_pos (mem_markDirty_self s.dirty p),
        projectPath_of_none cfg _ p (alGet_alErase_self s.ledger p hsort.1)]
      rfl
  · rw [if_neg hi, alGet_alSet_self]
    refine ⟨alGet_alErase_self _ prod (inner_sorted s.ledger p hsort), rfl, ?_⟩
    intro hemp
    exact absurd (by rw [hemp]; rfl) hi

/-- Claim C7 (Advisory lifecycle): begin_check and end_check only toggle the
advisory flag — ledger, dirty set, view and recomputation count are untouched;
recomputation is independent of the check-in-progress set; and a reported
batch is visible in the projection right after the next recomputation,
whatever checks are still in progress. -/
theorem advisory_lifecycle (cfg : Config) (s : SysState) (c : ProducerId)
    (X : List ProducerId) (p : Path) (prod : ProducerId)
    (batch : List DiagnosticEntry)
    (hvalid : ∀ d ∈ batch, d.range.start ≤ d.range.stop)
    (hview : alKeysSorted s.view) :
    ((step cfg s (.begin_check c)).ledger = s.ledger ∧
     (step cfg s (.begin_check c)).view = s.view ∧
     (step cfg s (.begin_check c)).dirty = s.dirty ∧
     (step cfg s (.begin_check c)).recomputations = s.recomputations) ∧
    ((step cfg s (.end_check c)).ledger = s.ledger ∧
     (step cfg s (.end_check c)).view = s.view ∧
     (step cfg s (.end_check c)).dirty = s.dirty ∧
     (step cfg s (.end_check c)).recomputations = s.recomputations) ∧
    (flushState cfg { s with checking := X }).view = (flushState cfg s).view ∧
    alGet (flushState cfg (step cfg s (.report p prod batch))).view p =
      (if (projectPath cfg (Ledger.report s.ledger p prod batch) p).isEmpty then none
       else some (projectPath cfg (Ledger.report s.ledger p prod batch) p)) := by
  refine ⟨⟨rfl, rfl, rfl, rfl⟩, ⟨rfl, rfl, rfl, rfl⟩, rfl, ?_⟩
  rw [step_report_valid cfg s p prod batch (batchInvalid_false hvalid)]
  show alGet ((markDirty s.dirty p).foldl
    (recomputePath cfg (Ledger.report s.ledger p prod batch)) s.view) p = _
  rw [alGet_foldl_recompute cfg _ _ s.view hview p,
    if_pos (mem_markDirty_self s.dirty p)]

/-- The operation list of a burst of reports. -/
def burstOps (burst : List (Path × ProducerId × List DiagnosticEntry)) : List Op :=
  burst.map fun b => Op.report b.1 b.2.1 b.2.2

theorem run_burst_facts (cfg : Config) :
    ∀ (burst : List (Path × ProducerId × List DiagnosticEntry)) (s : SysState),
    (∀ b ∈ burst, batchInvalid b.2.2 = false) →
    (run cfg s (burstOps burst)).recomputations = s.recomputations ∧
    (run cfg s (burstOps burst)).view = s.view ∧
    (burst ≠ [] → (run cfg s (burstOps burst)).timerPending = true)
  | [], s, _ => ⟨rfl, rfl, fun h => absurd rfl h⟩
  | b :: burst, s, hv => by
    have hb : batchInvalid b.2.2 = false := hv b (List.mem_cons_self b burst)
    have hrun : run cfg s (burstOps (b :: burst)) =
        run cfg (applyReport s b.1 b.2.1 b.2.2) (burstOps burst) := by
      show run cfg (step cfg s (.report b.1 b.2.1 b.2.2)) (burstOps burst) = _
      rw [step_report_valid cfg s b.1 b.2.1 b.2.2 hb]
    obtain ⟨h1, h2, h3⟩ := run_burst_facts cfg burst (applyReport s b.1 b.2.1 b.2.2)
      fun x hx => hv x (List.mem_cons_of_mem b hx)
    rw [hrun]
    refine ⟨h1, h2, fun _ => ?_⟩
    by_cases hbe : burst = []
    · subst hbe
      rfl
    · exact h3 hbe

/-- Claim C8 (Debounce coalescing): a burst of report calls with no timer fire
in between performs no recomputation itself and leaves a single armed timer;
the one timer fire that follows performs exactly one recomputation, which
clears the dirty set and brings every dirty path's cached excerpts to the
from-scratch projection of the current ledger; an immediately following
second fire does nothing. -/
theorem debounce_coalescing (cfg : Config) (s : SysState)
    (burst : List (Path × ProducerId × List DiagnosticEntry))
    (hne : burst ≠ [])
    (hvalid : ∀ b ∈ burst, ∀ d ∈ b.2.2, d.range.start ≤ d.range.stop)
    (hview : alKeysSorted s.view) :
    (run cfg s (burstOps burst)).recomputations = s.recomputations ∧
    (run cfg s (burstOps burst ++ [Op.tick])).recomputations = s.recomputations + 1 ∧
    (run cfg s (burstOps burst ++ [Op.tick])).dirty = [] ∧
    (run cfg s (burstOps burst ++ [Op.tick, Op.tick])).recomputations =
      s.recomputations + 1 ∧
    (∀ q ∈ (run cfg s (burstOps burst)).dirty,
      alGet (run cfg s (burstOps burst ++ [Op.tick])).view q =
        (if (projectPath cfg (run cfg s (burstOps burst)).ledger q).isEmpty then none
         else some (projectPath cfg (run cfg s (burstOps burst)).ledger q))) := by
  obtain ⟨h1, h2, h3⟩ := run_burst_facts cfg burst s
    fun b hb => batchInvalid_false (hvalid b hb)
  have hpend := h3 hne
  have htick : run cfg s (burstOps burst ++ [Op.tick]) =
      flushState cfg (run cfg s (burstOps burst)) := by
    rw [run, List.foldl_append]
    show step cfg (run cfg s (burstOps burst)) Op.tick = _
    show (if (run cfg s (burstOps burst)).timerPending
      then flushState cfg (run cfg s (burstOps burst))
      else run cfg s (burstOps burst)) = _
    rw [hpend]
    rfl
  have htick2 : run cfg s (burstOps burst ++ [Op.tick, Op.tick]) =
      flushState cfg (run cfg s (burstOps burst)) := by
    rw [run, List.foldl_append]
    show step cfg (step cfg (run cfg s (burstOps burst)) Op.tick) Op.tick = _
    have hstep1 : step cfg (run cfg s (burstOps burst)) Op.tick =
        flushState cfg (run cfg s (burstOps burst)) := by
      show (if (run cfg s (burstOps burst)).timerPending
        then flushState cfg (run cfg s (burstOps burst))
        else run cfg s (burstOps burst)) = _
      rw [hpend]
      rfl
    rw [hstep1]
    rfl
  refine ⟨h1, ?_, ?_, ?_, ?_⟩
  · rw [htick]
    show (run cfg s (burstOps burst)).recomputations + 1 = s.recomputations + 1
    rw [h1]
  · rw [htick]
    rfl
  · rw [htick2]
    show (run cfg s (burstOps burst)).recomputations + 1 = s.recomputations + 1
    rw [h1]
  · intro q hq
    rw [htick]
    show alGet ((run cfg s (burstOps burst)).dirty.foldl
      (recomputePath cfg (run cfg s (burstOps burst)).ledger)
      (run cfg s (burstOps burst)).view) q = _
    rw [h2, alGet_foldl_recompute cfg _ _ s.view hview q, if_pos hq]

/-- Executable check that association-list keys strictly increase. -/
def alKeysSortedB {α : Type} : List (Nat × α) → Bool
  | [] => true
  | [_] => true
  | a :: b :: rest => decide (a.1 < b.1) && alKeysSortedB (b :: rest)

theorem alKeysSorted_of_B {α : Type} : ∀ (l : List (Nat × α)),
    alKeysSortedB l = true → alKeysSorted l
  | [], _ => List.Pairwise.nil
  | [a], _ => List.pairwise_singleton _ a
  | a :: b :: rest, h => by
    rw [alKeysSortedB, Bool.and_eq_true] at h
    have ht := alKeysSorted_of_B (b :: rest) h.2
    refine List.pairwise_cons.mpr ⟨?_, ht⟩
    intro e he
    rcases List.mem_cons.mp he with h' | h'
    · rw [h']
      exact of_decide_eq_true h.1
    · have hb := (List.pairwise_cons.mp ht).1 e h'
      have hab := of_decide_eq_true h.1
      omega

theorem ledgerSorted_of_B (led : Ledger) (h1 : alKeysSortedB led = true)
    (h2 : (led.all fun pe => alKeysSortedB pe.2) = true) : LedgerSorted led :=
  ⟨alKeysSorted_of_B led h1,
   fun pe hpe => alKeysSorted_of_B pe.2 (List.all_eq_true.mp h2 pe hpe)⟩

/-- Concrete finding used by the witnesses. -/
def exEntry (a b gid : Nat) (prim : Bool) : DiagnosticEntry :=
  ⟨⟨a, b⟩, ⟨.error, "diagnostic", gid, prim, false, false⟩⟩

/-- Concrete configuration used by the witnesses: two context lines, adjacency
threshold zero, every document nine lines long. -/
def exCfg : Config := ⟨2, 0, fun _ => 9⟩

/-- Concrete ledger used by the witnesses: one path with two producers. -/
def exLed : Ledger := [(0, [(0, [exEntry 1 1 0 true]), (1, [exEntry 8 8 1 true])])]

/-- Concrete engine state whose ledger is exLed. -/
def exState : SysState := ⟨exLed, [], [], false, 0, []⟩

/-- Two bursts writing the same final ledger contents in different orders. -/
def exOps1 : List Op :=
  [.report 0 0 [exEntry 1 1 0 true], .report 1 1 [exEntry 3 3 1 true]]

/-- The same two reports as exOps1 in the opposite order. -/
def exOps2 : List Op :=
  [.report 1 1 [exEntry 3 3 1 true], .report 0 0 [exEntry 1 1 0 true]]

theorem determinism_of_ledger_witness :
    (run exCfg initState exOps1).ledger = (run exCfg initState exOps2).ledger ∧
    (flushState exCfg (run exCfg initState exOps1)).view =
      (flushState exCfg (run exCfg initState exOps2)).view :=
  ⟨rfl, determinism_of_ledger exCfg exOps1 exOps2 rfl⟩

theorem excerpts_sorted_nonoverlapping_witness :
    ValidLedger exLed ∧
    (List.Chain' (fun a b => a.stop < b.start) (projectPath exCfg exLed 0) ∧
      ∀ e ∈ projectPath exCfg exLed 0, e.start ≤ e.stop) :=
  ⟨validLedger_of_all exLed rfl,
   excerpts_sorted_nonoverlapping exCfg exLed 0 (validLedger_of_all exLed rfl)⟩

/-- Concrete batch whose range runs well past the nine-line document. -/
def exBatchFar : List DiagnosticEntry := [exEntry 12 18 0 true]

theorem clipping_safety_witness :
    (∀ d ∈ exBatchFar, d.range.start ≤ d.range.stop) ∧
    (∀ d ∈ exBatchFar, d.range.stop ≤ exCfg.docLens 0 + 10) ∧
    ¬exBatchFar.isEmpty ∧
    (report_except initState 0 0 exBatchFar = .ok (applyReport initState 0 0 exBatchFar) ∧
     alGet ((alGet (applyReport initState 0 0 exBatchFar).ledger 0).getD []) 0 =
       some exBatchFar ∧
     (∀ (led : Ledger) (q : Path), ∀ e ∈ projectPath exCfg led q,
       e.start ≤ exCfg.docLens q ∧ e.stop ≤ exCfg.docLens q)) :=
  ⟨by decide, by decide, by decide,
   clipping_safety exCfg initState 0 0 exBatchFar 10 (by decide) (by decide) (by decide)⟩

/-- Concrete malformed batch: the range's end precedes its start. -/
def exBatchBad : List DiagnosticEntry := [exEntry 5 2 0 true]

theorem report_invalid_range_witness :
    LedgerSorted initState.ledger ∧
    ((report_except initState 0 0 exBatchBad = .error .InvalidRange ↔
      ∃ d ∈ exBatchBad, d.range.stop < d.range.start) ∧
     (batchInvalid exBatchBad = true → step exCfg initState (.report 0 0 exBatchBad) = initState) ∧
     ((∀ d ∈ exBatchBad, d.range.start ≤ d.range.stop) →
       report_except initState 0 0 exBatchBad = .ok (applyReport initState 0 0 exBatchBad) ∧
       alGet ((alGet (applyReport initState 0 0 exBatchBad).ledger 0).getD []) 0 =
         (if exBatchBad.isEmpty then none else some exBatchBad))) :=
  ⟨ledgerSorted_of_B initState.ledger rfl rfl,
   report_invalid_range exCfg initState 0 0 exBatchBad
     (ledgerSorted_of_B initState.ledger rfl rfl)⟩

theorem idle_replace_witness :
    alGet ((alGet exState.ledger 0).getD []) 0 = some [exEntry 1 1 0 true] ∧
    ([exEntry 1 1 0 true] : List DiagnosticEntry) ≠ [] ∧
    LedgerSorted exState.ledger ∧
    alKeysSorted exState.view ∧
    (alGet ((alGet (step exCfg exState (.report 0 0 [])).ledger 0).getD []) 0 = none ∧
     (alGet (step exCfg exState (.report 0 0 [])).ledger 0).getD [] =
       alErase ((alGet exState.ledger 0).getD []) 0 ∧
     (alErase ((alGet exState.ledger 0).getD []) 0 = [] →
       alGet (step exCfg exState (.report 0 0 [])).ledger 0 = none ∧
       alGet (flushState exCfg (step exCfg exState (.report 0 0 []))).view 0 = none)) :=
  ⟨rfl, by decide, ledgerSorted_of_B exState.ledger rfl rfl, List.Pairwise.nil,
   idle_replace exCfg exState 0 0 [exEntry 1 1 0 true] rfl (by decide)
     (ledgerSorted_of_B exState.ledger rfl rfl) List.Pairwise.nil⟩

theorem advisory_lifecycle_witness :
    (∀ d ∈ [exEntry 3 3 2 true], d.range.start ≤ d.range.stop) ∧
    alKeysSorted exState.view ∧
    (((step exCfg exState (.begin_check 7)).ledger = exState.ledger ∧
      (step exCfg exState (.begin_check 7)).view = exState.view ∧
      (step exCfg exState (.begin_check 7)).dirty = exState.dirty ∧
      (step exCfg exState (.begin_check 7)).recomputations = exState.recomputations) ∧
     ((step exCfg exState (.end_check 7)).ledger = exState.ledger ∧
      (step exCfg exState (.end_check 7)).view = exState.view ∧
      (step exCfg exState (.end_check 7)).dirty = exState.dirty ∧
      (step exCfg exState (.end_check 7)).recomputations = exState.recomputations) ∧
     (flushState exCfg { exState with checking := [7] }).view =
       (flushState exCfg exState).view ∧
     alGet (flushState exCfg (step exCfg exState (.report 0 2 [exEntry 3 3 2 true]))).view 0 =
       (if (projectPath exCfg (Ledger.report exState.ledger 0 2 [exEntry 3 3 2 true]) 0).isEmpty
        then none
        else some (projectPath exCfg (Ledger.report exState.ledger 0 2 [exEntry 3 3 2 true]) 0))) :=
  ⟨by decide, List.Pairwise.nil,
   advisory_lifecycle exCfg exState 7 [7] 0 2 [exEntry 3 3 2 true] (by decide)
     List.Pairwise.nil⟩

/-- Concrete burst of two valid reports used by the C8 witness. -/
def exBurst : List (Path × ProducerId × List DiagnosticEntry) :=
  [(0, 0, [exEntry 1 1 0 true]), (1, 1, [exEntry 3 3 1 true])]

theorem debounce_coalescing_witness :
    exBurst ≠ [] ∧
    (∀ b ∈ exBurst, ∀ d ∈ b.2.2, d.range.start ≤ d.range.stop) ∧
    alKeysSorted initState.view ∧
    ((run exCfg initState (burstOps exBurst)).recomputations = initState.recomputations ∧
     (run exCfg initState (burstOps exBurst ++ [Op.tick])).recomputations =
       initState.recomputations + 1 ∧
     (run exCfg initState (burstOps exBurst ++ [Op.tick])).dirty = [] ∧
     (run exCfg initState (burstOps exBurst ++ [Op.tick, Op.tick])).recomputations =
       initState.recomputations + 1 ∧
     (∀ q ∈ (run exCfg initState (burstOps exBurst)).dirty,
       alGet (run exCfg initState (burstOps exBurst ++ [Op.tick])).view q =
         (if (projectPath exCfg (run exCfg initState (burstOps exBurst)).ledger q).isEmpty
          then none
          else some (projectPath exCfg (run exCfg initState (burstOps exBurst)).ledger q)))) :=
  ⟨by decide, by decide, List.Pairwise.nil,
   debounce_coalescing exCfg initState exBurst (by decide) (by decide) List.Pairwise.nil⟩

end Diagnostics
